import Mathlib

/-!
Verification of the advanced-filter engine and the search-optimizer engine
of the medicalordertreeview project.

JS strings are modelled as lists of code units (`List Nat`); JS values as a
small inductive `JsVal`; a numeric parse that yields NaN is modelled as
`none : Option ℚ`, and every relational comparison against `none` is false
(IEEE-754 NaN semantics).  A thrown JS exception is modelled as `none` of an
`Option` result.
-/

namespace MOT

/-- A JS string, as its list of code units. -/
abbrev Str := List Nat

/-- Code units of a Lean string literal. -/
def strOf (s : String) : Str := s.toList.map Char.toNat

/-- Whitespace code units stripped by `String.prototype.trim` (ASCII fragment). -/
def isWs (c : Nat) : Bool := c = 32 || c = 9 || c = 10 || c = 13 || c = 12 || c = 11

/-- `toLowerCase` on one code unit (ASCII fragment): 65–90 map to 97–122. -/
def lowerC (c : Nat) : Nat := if 65 ≤ c ∧ c ≤ 90 then c + 32 else c

/-- `String.prototype.toLowerCase` (ASCII fragment). -/
def toLower (s : Str) : Str := s.map lowerC

/-- Leading-whitespace strip. -/
def trimL (s : Str) : Str := s.dropWhile isWs

/-- `String.prototype.trim`: strip whitespace from both ends. -/
def trim (s : Str) : Str := ((trimL s).reverse.dropWhile isWs).reverse

/-- The normalisation `keyword.toLowerCase().trim()` used throughout part_006. -/
def clean (s : Str) : Str := trim (toLower s)

theorem lowerC_idem (c : Nat) : lowerC (lowerC c) = lowerC c := by
  unfold lowerC
  split
  · next h => simp only [if_neg (by omega : ¬(65 ≤ c + 32 ∧ c + 32 ≤ 90))]
  · rfl

theorem toLower_idem (s : Str) : toLower (toLower s) = toLower s := by
  unfold toLower
  rw [List.map_map]
  exact List.map_congr_left fun a _ => lowerC_idem a

theorem lowerC_map_infix {t s : Str} (h : t <:+: toLower s) : toLower t = t := by
  obtain ⟨p, q, hpq⟩ := h
  have hpq' : List.map lowerC s = (p ++ t) ++ q := by
    unfold toLower at hpq; rw [← hpq]
  rcases List.map_eq_append_iff.mp hpq' with ⟨s₁, s₂, _, hmap1, _⟩
  rcases List.map_eq_append_iff.mp hmap1 with ⟨sa, sb, _, _, hmapb⟩
  rw [← hmapb]
  exact toLower_idem sb

theorem trimL_suffix (s : Str) : trimL s <:+ s := List.dropWhile_suffix _

theorem dropWhile_head {p : Nat → Bool} :
    ∀ {l c t}, List.dropWhile p l = c :: t → p c = false := by
  intro l
  induction l with
  | nil => intro c t h; simp at h
  | cons a l ih =>
      intro c t h
      rw [List.dropWhile_cons] at h
      by_cases hp : p a
      · rw [if_pos hp] at h; exact ih h
      · rw [if_neg hp] at h
        cases h
        simpa using hp

theorem dropWhile_of_head_false {p : Nat → Bool} {c : Nat} {t : Str}
    (h : p c = false) : List.dropWhile p (c :: t) = c :: t := by
  rw [List.dropWhile_cons, if_neg (by simp [h])]

/-- `trim` is a prefix of the leading-strip. -/
theorem trim_prefix_trimL (s : Str) : trim s <+: trimL s := by
  apply List.reverse_suffix.mp
  unfold trim
  rw [List.reverse_reverse]
  exact List.dropWhile_suffix _

theorem trim_within (s : Str) : trim s <:+: s :=
  ((trim_prefix_trimL s).isInfix).trans ((trimL_suffix s).isInfix)

theorem trim_length_le (s : Str) : (trim s).length ≤ (trimL s).length :=
  (trim_prefix_trimL s).length_le

theorem trimL_eq_self_of_trim_eq {s : Str} (h : trim s = s) : trimL s = s := by
  have h1 : (trim s).length ≤ (trimL s).length := trim_length_le s
  have h2 : (trimL s).length ≤ s.length := (trimL_suffix s).length_le
  have h3 : (trim s).length = s.length := by rw [h]
  exact (trimL_suffix s).eq_of_length (by omega)

theorem head_not_ws_of_trimL_eq {s : Str} {c : Nat} {t : Str}
    (h : trimL s = s) (hs : s = c :: t) : isWs c = false := by
  subst hs
  unfold trimL at h
  by_cases hw : isWs c
  · rw [List.dropWhile_cons, if_pos (by simp [hw])] at h
    have := congrArg List.length h
    have hle : (List.dropWhile isWs t).length ≤ t.length :=
      (List.dropWhile_suffix _).length_le
    simp at this; omega
  · simpa using hw

theorem rev_dropWhile_eq_of_trim_eq {s : Str} (h : trim s = s) :
    List.dropWhile isWs s.reverse = s.reverse := by
  have h1 : trimL s = s := trimL_eq_self_of_trim_eq h
  unfold trim at h
  rw [h1] at h
  have := congrArg List.reverse h
  rwa [List.reverse_reverse] at this

theorem trim_eq_self_head {s : Str} {c : Nat} {t : Str}
    (h : trim s = s) (hs : s = c :: t) : isWs c = false :=
  head_not_ws_of_trimL_eq (trimL_eq_self_of_trim_eq h) hs

/-- `trim` is idempotent. -/
theorem trim_idem (s : Str) : trim (trim s) = trim s := by
  have hpre : trim s <+: trimL s := trim_prefix_trimL s
  have h1 : trimL (trim s) = trim s := by
    cases hts : trim s with
    | nil => simp [trimL]
    | cons c t =>
        rcases hpre with ⟨r, hr⟩
        rw [hts] at hr
        have hA : List.dropWhile isWs s = c :: (t ++ r) := by
          show trimL s = _
          rw [← hr]; simp
        have hc : isWs c = false := dropWhile_head hA
        unfold trimL
        exact dropWhile_of_head_false hc
  have h2 : List.dropWhile isWs (trim s).reverse = (trim s).reverse := by
    have hrr : (trim s).reverse = List.dropWhile isWs (trimL s).reverse := by
      unfold trim; rw [List.reverse_reverse]
    rw [hrr]
    cases hB : List.dropWhile isWs (trimL s).reverse with
    | nil => simp
    | cons c t => exact dropWhile_of_head_false (dropWhile_head hB)
  calc trim (trim s) = ((trimL (trim s)).reverse.dropWhile isWs).reverse := rfl
    _ = ((trim s).reverse.dropWhile isWs).reverse := by rw [h1]
    _ = (trim s).reverse.reverse := by rw [h2]
    _ = trim s := List.reverse_reverse _

/-- A pattern with a non-whitespace head occurring in `w` also occurs in the
leading-whitespace strip of `w`. -/
theorem infix_trimL_of_infix {p w : Str}
    (hne : p ≠ []) (hhead : ∀ c t, p = c :: t → isWs c = false)
    (h : p <:+: w) : p <:+: trimL w := by
  induction w with
  | nil => simp at h; exact absurd h hne
  | cons a w ih =>
      by_cases hw : isWs a
      · have : trimL (a :: w) = trimL w := by
          unfold trimL; rw [List.dropWhile_cons, if_pos (by simp [hw])]
        rw [this]
        rcases List.infix_cons_iff.mp h with hpre | hinf
        · rcases List.prefix_cons_iff.mp hpre with rfl | ⟨t, rfl, _⟩
          · exact absurd rfl hne
          · have := hhead a t rfl
            rw [this] at hw; exact absurd hw (by simp)
        · exact ih hinf
      · have : trimL (a :: w) = a :: w := by
          unfold trimL; rw [List.dropWhile_cons, if_neg (by simp [hw])]
        rw [this]; exact h

/-- For a fully trimmed non-empty pattern, occurring in `w` and occurring in
`trim w` coincide. -/
theorem infix_trim_iff {p w : Str} (hne : p ≠ []) (hp : trim p = p) :
    p <:+: trim w ↔ p <:+: w := by
  constructor
  · intro h; exact h.trans (trim_within w)
  · intro h
    have hhead : ∀ c t, p = c :: t → isWs c = false := fun c t hct =>
      trim_eq_self_head hp hct
    have step1 : p <:+: trimL w := infix_trimL_of_infix hne hhead h
    have hrne : p.reverse ≠ [] := by simpa using hne
    have hrhead : ∀ c t, p.reverse = c :: t → isWs c = false := by
      intro c t hct
      have hrd : List.dropWhile isWs p.reverse = p.reverse :=
        rev_dropWhile_eq_of_trim_eq hp
      exact head_not_ws_of_trimL_eq (s := p.reverse) hrd hct
    have step2 : p.reverse <:+: (trimL w).reverse := List.reverse_infix.mpr step1
    have step3 : p.reverse <:+: List.dropWhile isWs (trimL w).reverse :=
      infix_trimL_of_infix hrne hrhead step2
    have step4 : p.reverse.reverse <:+: (List.dropWhile isWs (trimL w).reverse).reverse :=
      List.reverse_infix.mpr step3
    simpa [trim] using step4

theorem clean_idem (s : Str) : clean (clean s) = clean s := by
  unfold clean
  have h1 : toLower (trim (toLower s)) = trim (toLower s) :=
    lowerC_map_infix (trim_within (toLower s))
  rw [h1, trim_idem]

theorem trim_clean (s : Str) : trim (clean s) = clean s := trim_idem _

/-! ### Association lists, standing in for JS `Map`

A JS `Map` keeps insertion order; `set` on an existing key updates the value
in place, `set` on a fresh key appends. -/

/-- `Map.get` / `Map.has`. -/
def lookupA {α : Type} : List (Str × α) → Str → Option α
  | [], _ => none
  | (k', v) :: rest, k => if k' = k then some v else lookupA rest k

/-- `Map.set`: replace in place if the key is present, else append. -/
def mapSet {α : Type} : List (Str × α) → Str → α → List (Str × α)
  | [], k, v => [(k, v)]
  | (k', v') :: rest, k, v =>
      if k' = k then (k, v) :: rest else (k', v') :: mapSet rest k v

/-- `Map.delete`: remove the entry with the given key. -/
def eraseKey {α : Type} : List (Str × α) → Str → List (Str × α)
  | [], _ => []
  | (k', v) :: rest, k => if k' = k then rest else (k', v) :: eraseKey rest k

theorem lookupA_mapSet_self {α : Type} (m : List (Str × α)) (k : Str) (v : α) :
    lookupA (mapSet m k v) k = some v := by
  induction m with
  | nil => simp [mapSet, lookupA]
  | cons p rest ih =>
      obtain ⟨k', v'⟩ := p
      by_cases h : k' = k
      · simp [mapSet, lookupA, h]
      · simp [mapSet, lookupA, h, ih]

theorem lookupA_mapSet_ne {α : Type} (m : List (Str × α)) {k k' : Str} (v : α)
    (h : k' ≠ k) : lookupA (mapSet m k v) k' = lookupA m k' := by
  induction m with
  | nil => simp [mapSet, lookupA, Ne.symm h]
  | cons p rest ih =>
      obtain ⟨k₀, v₀⟩ := p
      by_cases h0 : k₀ = k
      · subst h0
        simp [mapSet, lookupA, Ne.symm h]
      · simp only [mapSet, if_neg h0, lookupA]
        by_cases h1 : k₀ = k'
        · simp [h1]
        · simp [h1, ih]

theorem mapSet_fresh {α : Type} (m : List (Str × α)) (k : Str) (v : α)
    (h : lookupA m k = none) : mapSet m k v = m ++ [(k, v)] := by
  induction m with
  | nil => simp [mapSet]
  | cons p rest ih =>
      obtain ⟨k', v'⟩ := p
      by_cases hk : k' = k
      · simp [lookupA, hk] at h
      · simp [lookupA, hk] at h
        simp [mapSet, hk, ih h]

/-! ### `InvertedIndexBuilder` (part_006 lines 470–611)

A row is the list of its per-column values, already coerced by
`String(row[col.key] || '')`; the builder lower-cases and trims each value,
tokenizes it, and adds the row index to the token's posting set. -/

/-- `Set.prototype.add` on a posting list. -/
def setAdd (l : List Nat) (i : Nat) : List Nat := if i ∈ l then l else l ++ [i]

/-- Substrings of `text` of length `len` in order of start position. -/
def grams (text : Str) (len : Nat) : List Str :=
  (List.range (text.length - len + 1)).map fun i => (text.drop i).take len

/-- `InvertedIndexBuilder.tokenize`: single code units, all substrings of
length 2–4, and the whole text.  (The JS version accumulates them in a `Set`;
only membership is relevant.) -/
def tokenize (text : Str) : List Str :=
  if text = [] then []
  else (text.map fun c => [c])
    ++ ([2, 3, 4].filter fun len => len ≤ text.length).flatMap (grams text)
    ++ [text]

theorem mem_grams {text s : Str} {len : Nat} (h1 : 1 ≤ len) (h2 : len ≤ text.length) :
    s ∈ grams text len ↔ s <:+: text ∧ s.length = len := by
  constructor
  · intro hs
    rcases List.mem_map.mp hs with ⟨i, hi, rfl⟩
    have hi' : i + len ≤ text.length := by
      have := List.mem_range.mp hi; omega
    constructor
    · refine ⟨text.take i, (text.drop i).drop len, ?_⟩
      rw [List.append_assoc, List.take_append_drop, List.take_append_drop]
    · rw [List.length_take, List.length_drop]; omega
  · rintro ⟨⟨p, q, hw⟩, hlen⟩
    have hlengths : text.length = p.length + len + q.length := by
      have := congrArg List.length hw
      simp [hlen] at this
      omega
    refine List.mem_map.mpr ⟨p.length, List.mem_range.mpr (by omega), ?_⟩
    rw [← hw, List.append_assoc, List.drop_left, List.take_left' hlen]

theorem mem_tokenize {text s : Str} :
    s ∈ tokenize text ↔ s ≠ [] ∧ s <:+: text ∧ (s.length ≤ 4 ∨ s = text) := by
  unfold tokenize
  by_cases htext : text = []
  · subst htext
    simp only [if_pos rfl]
    constructor
    · intro h; simp at h
    · rintro ⟨hne, hinf, _⟩
      rw [List.infix_nil] at hinf
      exact absurd hinf hne
  · rw [if_neg htext]
    constructor
    · intro hs
      rcases List.mem_append.mp hs with hs | hlast
      · rcases List.mem_append.mp hs with hsingle | hgram
        · rcases List.mem_map.mp hsingle with ⟨c, hc, rfl⟩
          rcases List.append_of_mem hc with ⟨u, w, rfl⟩
          exact ⟨by simp, ⟨u, w, by simp⟩, Or.inl (by simp)⟩
        · rcases List.mem_flatMap.mp hgram with ⟨len, hlen, hg⟩
          rcases List.mem_filter.mp hlen with ⟨hlen24, hle⟩
          have hle' : len ≤ text.length := by simpa using hle
          have hlen24' : len = 2 ∨ len = 3 ∨ len = 4 := by simpa using hlen24
          have h1 : 1 ≤ len := by omega
          rcases (mem_grams h1 hle').mp hg with ⟨hinf, hslen⟩
          refine ⟨?_, hinf, Or.inl ?_⟩
          · intro hnil; rw [hnil] at hslen; simp at hslen; omega
          · omega
      · have : s = text := by simpa using hlast
        exact ⟨this ▸ htext, this ▸ List.infix_refl text, Or.inr this⟩
    · rintro ⟨hne, hinf, hcase⟩
      by_cases heq : s = text
      · subst heq
        exact List.mem_append.mpr (Or.inr (by simp))
      · have hle4 : s.length ≤ 4 := by
          rcases hcase with h | h
          · exact h
          · exact absurd h heq
        have hge1 : 1 ≤ s.length := by
          cases s with
          | nil => exact absurd rfl hne
          | cons a t => simp
        have hlelen : s.length ≤ text.length := hinf.length_le
        refine List.mem_append.mpr (Or.inl (List.mem_append.mpr ?_))
        by_cases h1 : s.length = 1
        · left
          rcases List.length_eq_one.mp h1 with ⟨c, rfl⟩
          have hc : c ∈ text := (hinf.sublist.subset) (by simp)
          exact List.mem_map.mpr ⟨c, hc, rfl⟩
        · right
          refine List.mem_flatMap.mpr ⟨s.length, ?_, ?_⟩
          · refine List.mem_filter.mpr ⟨?_, by simpa using hlelen⟩
            have : s.length = 2 ∨ s.length = 3 ∨ s.length = 4 := by omega
            rcases this with h | h | h <;> simp [h]
          · exact (mem_grams hge1 hlelen).mpr ⟨hinf, rfl⟩

/-- Insert row index `i` into the posting set of token `t`
(`if (!index.has(token)) index.set(token, new Set()); index.get(token).add(rowIndex)`). -/
def idxAdd (m : List (Str × List Nat)) (t : Str) (i : Nat) : List (Str × List Nat) :=
  mapSet m t (setAdd ((lookupA m t).getD []) i)

/-- Posting set of a token. -/
def postings (m : List (Str × List Nat)) (t : Str) : List Nat :=
  (lookupA m t).getD []

/-- One column value of one row: add every token of the normalised value. -/
def addValue (m : List (Str × List Nat)) (i : Nat) (v : Str) : List (Str × List Nat) :=
  (tokenize (clean v)).foldl (fun m t => idxAdd m t i) m

/-- One row: `columns.forEach(col => ...)` over its values. -/
def buildRow (m : List (Str × List Nat)) (i : Nat) (row : List Str) :
    List (Str × List Nat) :=
  row.foldl (fun m v => addValue m i v) m

/-- `data.forEach((row, rowIndex) => ...)` from the given starting index. -/
def buildRows (m : List (Str × List Nat)) (i : Nat) :
    List (List Str) → List (Str × List Nat)
  | [] => m
  | row :: rest => buildRows (buildRow m i row) (i + 1) rest

/-- `InvertedIndexBuilder.build`: the inverted index of a dataset. -/
def build (data : List (List Str)) : List (Str × List Nat) :=
  buildRows [] 0 data

theorem mem_setAdd {l : List Nat} {i j : Nat} : j ∈ setAdd l i ↔ j ∈ l ∨ j = i := by
  unfold setAdd
  by_cases h : i ∈ l
  · simp only [if_pos h]
    constructor
    · exact Or.inl
    · rintro (hj | rfl)
      · exact hj
      · exact h
  · simp [if_neg h]

theorem mem_idxAdd {m : List (Str × List Nat)} {t t' : Str} {i j : Nat} :
    j ∈ postings (idxAdd m t i) t' ↔ j ∈ postings m t' ∨ (t' = t ∧ j = i) := by
  unfold idxAdd postings
  by_cases h : t' = t
  · subst h
    rw [lookupA_mapSet_self]
    simp [mem_setAdd]
  · rw [lookupA_mapSet_ne _ _ h]
    simp [h]

theorem mem_addValue {m : List (Str × List Nat)} {i : Nat} {v : Str} {t : Str} {j : Nat} :
    j ∈ postings (addValue m i v) t ↔
      j ∈ postings m t ∨ (t ∈ tokenize (clean v) ∧ j = i) := by
  unfold addValue
  generalize tokenize (clean v) = toks
  induction toks generalizing m with
  | nil => simp
  | cons t₀ rest ih =>
      rw [List.foldl_cons, ih]
      rw [mem_idxAdd]
      constructor
      · rintro ((hj | ⟨rfl, rfl⟩) | ⟨ht, rfl⟩)
        · exact Or.inl hj
        · exact Or.inr ⟨by simp, rfl⟩
        · exact Or.inr ⟨by simp [ht], rfl⟩
      · rintro (hj | ⟨ht, rfl⟩)
        · exact Or.inl (Or.inl hj)
        · rcases List.mem_cons.mp ht with rfl | ht
          · exact Or.inl (Or.inr ⟨rfl, rfl⟩)
          · exact Or.inr ⟨ht, rfl⟩

theorem mem_buildRow {m : List (Str × List Nat)} {i : Nat} {row : List Str}
    {t : Str} {j : Nat} :
    j ∈ postings (buildRow m i row) t ↔
      j ∈ postings m t ∨ (∃ v ∈ row, t ∈ tokenize (clean v)) ∧ j = i := by
  unfold buildRow
  induction row generalizing m with
  | nil => simp
  | cons v rest ih =>
      rw [List.foldl_cons, ih, mem_addValue]
      constructor
      · rintro ((hj | ⟨ht, rfl⟩) | ⟨⟨v', hv', ht'⟩, rfl⟩)
        · exact Or.inl hj
        · exact Or.inr ⟨⟨v, by simp, ht⟩, rfl⟩
        · exact Or.inr ⟨⟨v', by simp [hv'], ht'⟩, rfl⟩
      · rintro (hj | ⟨⟨v', hv', ht'⟩, rfl⟩)
        · exact Or.inl (Or.inl hj)
        · rcases List.mem_cons.mp hv' with rfl | hv'
          · exact Or.inl (Or.inr ⟨ht', rfl⟩)
          · exact Or.inr ⟨⟨v', hv', ht'⟩, rfl⟩

theorem mem_buildRows {data : List (List Str)} :
    ∀ {m : List (Str × List Nat)} {i₀ : Nat} {t : Str} {j : Nat},
    j ∈ postings (buildRows m i₀ data) t ↔
      j ∈ postings m t ∨
        ∃ k row, data.get? k = some row ∧ j = i₀ + k ∧
          ∃ v ∈ row, t ∈ tokenize (clean v) := by
  induction data with
  | nil => intro m i₀ t j; simp [buildRows]
  | cons row rest ih =>
      intro m i₀ t j
      show j ∈ postings (buildRows (buildRow m i₀ row) (i₀ + 1) rest) t ↔ _
      rw [ih, mem_buildRow]
      constructor
      · rintro ((hj | ⟨hv, rfl⟩) | ⟨k, row', hk, rfl, hv⟩)
        · exact Or.inl hj
        · exact Or.inr ⟨0, row, by simp, by omega, hv⟩
        · exact Or.inr ⟨k + 1, row', by simpa using hk, by omega, hv⟩
      · rintro (hj | ⟨k, row', hk, rfl, hv⟩)
        · exact Or.inl (Or.inl hj)
        · cases k with
          | zero =>
              simp at hk
              subst hk
              exact Or.inl (Or.inr ⟨hv, by omega⟩)
          | succ k =>
              refine Or.inr ⟨k, row', by simpa using hk, by omega, hv⟩

/-- Membership in the built index: row `j` is posted under token `t` exactly
when some column value of row `j` tokenizes to `t`. -/
theorem mem_build {data : List (List Str)} {t : Str} {j : Nat} :
    j ∈ postings (build data) t ↔
      ∃ row, data.get? j = some row ∧ ∃ v ∈ row, t ∈ tokenize (clean v) := by
  unfold build
  rw [mem_buildRows]
  constructor
  · rintro (hj | ⟨k, row, hk, rfl, hv⟩)
    · simp [postings, lookupA] at hj
    · exact ⟨row, by simpa using hk, hv⟩
  · rintro ⟨row, hrow, hv⟩
    exact Or.inr ⟨j, row, hrow, by omega, hv⟩

/-- `InvertedIndexBuilder.search`: normalise the keyword, empty means empty
result, otherwise a direct posting lookup. -/
def idxSearch (m : List (Str × List Nat)) (keyword : Str) : List Nat :=
  let ck := clean keyword
  if ck = [] then [] else postings m ck

/-! ### `SearchCache` (part_006 lines 617–701)

Each entry stores the result set and a hit counter.  The JS entry also
stores a timestamp, but no decision in the class ever reads it, so it is
omitted here. -/

structure CEntry where
  results : List Nat
  hitCount : Nat
deriving DecidableEq

structure SCache where
  entries : List (Str × CEntry)
  maxSize : Nat
  hits : Nat
  misses : Nat
deriving DecidableEq

/-- A fresh `new SearchCache(maxSize)`. -/
def SCache.new (maxSize : Nat) : SCache := ⟨[], maxSize, 0, 0⟩

/-- `SearchCache.get`: on a hit, bump the entry's hit counter and the global
hit counter and return the stored results; on a miss count a miss. -/
def SCache.get (c : SCache) (keyword : Str) : Option (List Nat) × SCache :=
  let ck := clean keyword
  match lookupA c.entries ck with
  | some e =>
      (some e.results,
       { c with
          entries := mapSet c.entries ck { e with hitCount := e.hitCount + 1 },
          hits := c.hits + 1 })
  | none => (none, { c with misses := c.misses + 1 })

/-- The `forEach` scan of `SearchCache.set` tracking `minHits` / `lruKey`;
`none` as accumulator stands for `minHits = Infinity, lruKey = null`. -/
def scanMin : Option (Str × Nat) → List (Str × CEntry) → Option (Str × Nat)
  | best, [] => best
  | none, (k, e) :: rest => scanMin (some (k, e.hitCount)) rest
  | some (bk, bh), (k, e) :: rest =>
      if e.hitCount < bh then scanMin (some (k, e.hitCount)) rest
      else scanMin (some (bk, bh)) rest

/-- `SearchCache.set`: when the cache is full and the key is fresh, scan for
the least-hit entry and delete it — but, as in the JS source, only when the
chosen key is truthy (`if (lruKey)`), so an empty-string victim is never
deleted — then store the new entry with `hitCount = 0`. -/
def SCache.set (c : SCache) (keyword : Str) (results : List Nat) : SCache :=
  let ck := clean keyword
  let entries :=
    if c.maxSize ≤ c.entries.length ∧ lookupA c.entries ck = none then
      match scanMin none c.entries with
      | some (lru, _) => if lru = [] then c.entries else eraseKey c.entries lru
      | none => c.entries
    else c.entries
  { c with entries := mapSet entries ck ⟨results, 0⟩ }

/-! ### `SearchOptimizer` (part_006 lines 707–884)

A row is the list of its per-column string values; `initialize` stores the
dataset and its inverted index.  Wall-clock timing fields are omitted: they
never influence results. -/

inductive Source
  | cache
  | index
deriving DecidableEq

structure SearchRes where
  results : List Nat
  source : Source
deriving DecidableEq

structure IncRes where
  results : List Nat
  isIncremental : Bool
deriving DecidableEq

structure SOpt where
  data : List (List Str)
  index : List (Str × List Nat)
  cache : SCache
  totalSearches : Nat
deriving DecidableEq

/-- `initialize(data, columns)`: store the data and build the index;
the cache starts as `new SearchCache()` with the default size 20. -/
def SOpt.init (data : List (List Str)) : SOpt :=
  ⟨data, build data, SCache.new 20, 0⟩

/-- `SearchOptimizer.search`: cache first, then the inverted index, caching
the index result. -/
def SOpt.search (st : SOpt) (keyword : Str) : SearchRes × SOpt :=
  match st.cache.get keyword with
  | (some r, c') => (⟨r, Source.cache⟩, { st with cache := c' })
  | (none, c') =>
      let r := idxSearch st.index keyword
      (⟨r, Source.index⟩,
       { st with cache := c'.set keyword r, totalSearches := st.totalSearches + 1 })

/-- `SearchOptimizer.rowContains`: some column value, lower-cased (but not
trimmed), contains the keyword as a substring. -/
def rowContains (row : List Str) (keyword : Str) : Bool :=
  row.any fun v => decide (keyword <:+: toLower v)

/-- `SearchOptimizer.incrementalSearch`: if the cleaned new keyword extends
the cleaned previous one and the previous result set is cached, rescan only
those rows with a per-column substring check; otherwise fall back to a full
search with `isIncremental = false`. -/
def SOpt.incrementalSearch (st : SOpt) (prevKeyword newKeyword : Str) : IncRes × SOpt :=
  let cleanPrev := clean prevKeyword
  let cleanNew := clean newKeyword
  if ¬ cleanPrev <+: cleanNew ∨ cleanPrev = [] then
    let (r, st') := st.search newKeyword
    (⟨r.results, false⟩, st')
  else
    match st.cache.get prevKeyword with
    | (none, c') =>
        let (r, st') := SOpt.search { st with cache := c' } newKeyword
        (⟨r.results, false⟩, st')
    | (some prev, c') =>
        let newResults := prev.filter fun i => rowContains (st.data.getD i []) cleanNew
        (⟨newResults, true⟩,
         { st with cache := c'.set newKeyword newResults,
                   totalSearches := st.totalSearches + 1 })

/-- `SearchOptimizer.indexToResults`: map in-range indices to rows. -/
def SOpt.indexToResults (st : SOpt) (l : List Nat) : List (List Str) :=
  l.filterMap fun i => st.data.get? i

theorem mem_tokenize_short {p w : Str} (hne : p ≠ []) (hle : p.length ≤ 4) :
    p ∈ tokenize w ↔ p <:+: w := by
  rw [mem_tokenize]
  constructor
  · rintro ⟨_, h, _⟩; exact h
  · intro h; exact ⟨hne, h, Or.inl hle⟩

theorem mem_idxSearch {data : List (List Str)} {k : Str} {j : Nat}
    (h : clean k ≠ []) :
    j ∈ idxSearch (build data) k ↔
      ∃ row, data.get? j = some row ∧ ∃ v ∈ row, clean k ∈ tokenize (clean v) := by
  simp only [idxSearch]
  rw [if_neg h]
  exact mem_build

/-! ### Claim theorems for the search engine -/

/-- **C4, counterexample**: the whitespace token `" "` produced by tokenizing
the field value `"a b"` of row 0 normalises to the empty keyword, so searching
it returns the empty set, which does not contain row 0. -/
theorem C4_counterexample :
    strOf " " ∈ tokenize (clean (strOf "a b")) ∧
    ([[strOf "a b"]] : List (List Str)).get? 0 = some [strOf "a b"] ∧
    (0 : Nat) ∉ idxSearch (build [[strOf "a b"]]) (strOf " ") := by decide

/-- **C4 (amended)**: for every dataset, row, field value and token of the
normalised field value, searching the index for the token returns a set
containing the row's index — provided the token does not trim to the empty
string (whitespace-only tokens normalise to the empty keyword, which the
search maps to the empty set). -/
theorem C4_token_search_mem {data : List (List Str)} {j : Nat} {row : List Str}
    {v t : Str} (hrow : data.get? j = some row) (hv : v ∈ row)
    (ht : t ∈ tokenize (clean v)) (hne : trim t ≠ []) :
    j ∈ idxSearch (build data) t := by
  rcases mem_tokenize.mp ht with ⟨htne, hinf, hcase⟩
  have hlowfix : toLower t = t :=
    lowerC_map_infix (hinf.trans (trim_within (toLower v)))
  have hclean : clean t = trim t := by unfold clean; rw [hlowfix]
  have htrim_inf : trim t <:+: clean v := (trim_within t).trans hinf
  have htm : trim t ∈ tokenize (clean v) := by
    rcases hcase with hle | heq
    · exact mem_tokenize.mpr
        ⟨hne, htrim_inf, Or.inl (le_trans (trim_within t).length_le hle)⟩
    · subst heq
      rw [trim_clean]
      exact ht
  have hsearch : idxSearch (build data) t = postings (build data) (trim t) := by
    simp only [idxSearch]
    rw [hclean, if_neg hne]
  rw [hsearch]
  exact mem_build.mpr ⟨row, hrow, v, hv, htm⟩

/-- Witness for C4 (amended) at a concrete one-row dataset. -/
theorem C4_token_search_mem_witness :
    (0 : Nat) ∈ idxSearch (build [[strOf "ab"]]) (strOf "a") :=
  C4_token_search_mem (t := strOf "a")
    (show ([[strOf "ab"]] : List (List Str)).get? 0 = some [strOf "ab"] by decide)
    (show strOf "ab" ∈ [strOf "ab"] by decide)
    (by decide) (by decide)

/-- **C8**: searching the same keyword twice in a row returns the same result
list both times, and the second call is served from the cache. -/
theorem C8_search_idempotent (st : SOpt) (k : Str) :
    ((st.search k).2.search k).1.results = (st.search k).1.results ∧
    ((st.search k).2.search k).1.source = Source.cache := by
  cases h : lookupA st.cache.entries (clean k) with
  | some e => simp [SOpt.search, SCache.get, h, lookupA_mapSet_self]
  | none => simp [SOpt.search, SCache.get, SCache.set, h, lookupA_mapSet_self]

/-- **C9 (code bug)**: the eviction guard `if (lruKey)` treats the empty
string as "no victim", so inserting a fresh key into a full cache whose
least-hit entry has the empty-string key skips eviction and exceeds
`maxSize`: with `maxSize = 1`, after `set("", ...)` then `set("a", ...)` the
cache holds 2 entries. -/
theorem C9_overflow :
    (((SCache.new 1).set (strOf "") []).set (strOf "a") []).entries.length = 2 ∧
    (SCache.new 1).maxSize <
      (((SCache.new 1).set (strOf "") []).set (strOf "a") []).entries.length := by
  decide

/-- **C1, counterexample**: over the dataset `[["abcdef"]]`, after a full
search for `"a"` has been cached, `incrementalSearch("a", "abcde")` finds row
0 by substring scan (`isIncremental = true`), while a full `search("abcde")`
finds nothing: the 5-unit keyword is a proper substring of the field value,
hence not a token of the index. -/
theorem C1_counterexample :
    ((((SOpt.init [[strOf "abcdef"]]).search (strOf "a")).2.incrementalSearch
        (strOf "a") (strOf "abcde")).1 = ⟨[0], true⟩) ∧
    ((((SOpt.init [[strOf "abcdef"]]).search (strOf "a")).2.search
        (strOf "abcde")).1.results = []) := by decide

/-- **C1 (amended)**: when additionally the cleaned new keyword has length at
most 4 (so that it is always indexed as a token), the cached entry for `k1`
holds the true index result for `k1`, and `k2` is not yet cached, the
incremental path returns `isIncremental = true` and exactly the row set of a
full search for `k2`. -/
theorem C1_incremental_eq_full (st : SOpt) (k1 k2 : Str) (e : CEntry)
    (hidx : st.index = build st.data)
    (hp1 : clean k1 ≠ []) (hp2 : clean k1 <+: clean k2)
    (hlen : (clean k2).length ≤ 4)
    (hc1 : lookupA st.cache.entries (clean k1) = some e)
    (he : e.results = idxSearch (build st.data) k1)
    (hc2 : lookupA st.cache.entries (clean k2) = none) :
    (st.incrementalSearch k1 k2).1.isIncremental = true ∧
    (∀ j, j ∈ (st.incrementalSearch k1 k2).1.results ↔ j ∈ (st.search k2).1.results) ∧
    (∀ r, r ∈ st.indexToResults (st.incrementalSearch k1 k2).1.results ↔
          r ∈ st.indexToResults (st.search k2).1.results) := by
  have hck2 : clean k2 ≠ [] := by
    intro h0
    rw [h0] at hp2
    exact hp1 (List.prefix_nil.mp hp2)
  have hg1 : st.cache.get k1 =
      (some e.results,
       { st.cache with
          entries := mapSet st.cache.entries (clean k1) ⟨e.results, e.hitCount + 1⟩,
          hits := st.cache.hits + 1 }) := by
    simp [SCache.get, hc1]
  have hg2 : st.cache.get k2 = (none, { st.cache with misses := st.cache.misses + 1 }) := by
    simp [SCache.get, hc2]
  have hinc : (st.incrementalSearch k1 k2).1 =
      ⟨e.results.filter fun i => rowContains (st.data.getD i []) (clean k2), true⟩ := by
    simp only [SOpt.incrementalSearch]
    rw [if_neg (by push_neg; exact ⟨hp2, hp1⟩), hg1]
  have hres : (st.incrementalSearch k1 k2).1.results =
      e.results.filter fun i => rowContains (st.data.getD i []) (clean k2) := by
    rw [hinc]
  have hfull : (st.search k2).1.results = idxSearch (build st.data) k2 := by
    simp only [SOpt.search]
    rw [hg2]
    simp [hidx]
  have hmem : ∀ j,
      (j ∈ e.results.filter fun i => rowContains (st.data.getD i []) (clean k2)) ↔
      j ∈ idxSearch (build st.data) k2 := by
    intro j
    rw [List.mem_filter, he, mem_idxSearch (k := k1) hp1, mem_idxSearch (k := k2) hck2]
    constructor
    · rintro ⟨⟨row, hrow, _⟩, hrc⟩
      refine ⟨row, hrow, ?_⟩
      have hgd : st.data.getD j [] = row := by
        rw [List.getD_eq_getElem?_getD, ← List.get?_eq_getElem?, hrow]; rfl
      rw [hgd] at hrc
      unfold rowContains at hrc
      rcases List.any_eq_true.mp hrc with ⟨v, hv, hvp⟩
      have hiv : clean k2 <:+: toLower v := of_decide_eq_true hvp
      have hic : clean k2 <:+: clean v :=
        (infix_trim_iff hck2 (trim_clean k2)).mpr hiv
      exact ⟨v, hv, (mem_tokenize_short hck2 hlen).mpr hic⟩
    · rintro ⟨row, hrow, v, hv, htok⟩
      have hinf2 : clean k2 <:+: clean v := (mem_tokenize_short hck2 hlen).mp htok
      have hlen1 : (clean k1).length ≤ 4 := le_trans hp2.length_le hlen
      refine ⟨⟨row, hrow, v, hv, ?_⟩, ?_⟩
      · exact (mem_tokenize_short hp1 hlen1).mpr (hp2.isInfix.trans hinf2)
      · have hgd : st.data.getD j [] = row := by
          rw [List.getD_eq_getElem?_getD, ← List.get?_eq_getElem?, hrow]; rfl
        rw [hgd]
        unfold rowContains
        refine List.any_eq_true.mpr ⟨v, hv, decide_eq_true ?_⟩
        exact hinf2.trans (trim_within (toLower v))
  refine ⟨by rw [hinc], fun j => ?_, fun r => ?_⟩
  · rw [hres, hfull]
    exact hmem j
  · rw [hres, hfull]
    simp only [SOpt.indexToResults, List.mem_filterMap]
    constructor
    · rintro ⟨i, hi, hget⟩; exact ⟨i, (hmem i).mp hi, hget⟩
    · rintro ⟨i, hi, hget⟩; exact ⟨i, (hmem i).mpr hi, hget⟩

/-- A concrete optimiser state for the C1 witness: one row `["ab"]`, the built
index, and a cache already holding the true result of searching `"a"`. -/
def c1wst : SOpt :=
  ⟨[[strOf "ab"]], build [[strOf "ab"]],
   ⟨[(strOf "a", ⟨[0], 0⟩)], 20, 0, 0⟩, 0⟩

/-- Witness for C1 (amended) at the concrete state `c1wst`. -/
theorem C1_incremental_eq_full_witness :
    (c1wst.incrementalSearch (strOf "a") (strOf "ab")).1.isIncremental = true ∧
    ((0 : Nat) ∈ (c1wst.incrementalSearch (strOf "a") (strOf "ab")).1.results ↔
     (0 : Nat) ∈ (c1wst.search (strOf "ab")).1.results) := by
  have h := C1_incremental_eq_full c1wst (strOf "a") (strOf "ab") ⟨[0], 0⟩
    (by decide) (by decide) (by decide) (by decide) (by decide) (by decide) (by decide)
  exact ⟨h.1, h.2.1 0⟩

/-! ### JS values and numeric coercions (for the filter engine of part_002)

Row cell values are primitives: `undefined`, `null`, strings, finite numbers
and `Date` objects (kept as epoch milliseconds).  A parse that yields NaN is
`none`. -/

inductive JsVal
  | undef
  | null
  | str (s : Str)
  | num (q : ℚ)
  | date (t : Int)
deriving DecidableEq

/-- Digit code units 48–57. -/
def isDigit (c : Nat) : Bool := 48 ≤ c && c ≤ 57

/-- Value of a digit string, most significant first. -/
def natOfDigits (l : List Nat) : Nat := l.foldl (fun a c => a * 10 + (c - 48)) 0

/-- Greedy numeric-literal parse `[+-] digits [. digits]`, returning the value
and the unconsumed rest; fails when no digit is present.  (JS exponents,
hex and `Infinity` are not modelled; no claim depends on them.) -/
def parseNum (s : Str) : Option (ℚ × Str) :=
  let signed : ℚ × Str :=
    match s with
    | 45 :: r => (-1, r)
    | 43 :: r => (1, r)
    | _ => (1, s)
  let sgn := signed.1
  let s2 := signed.2
  let intD := s2.takeWhile isDigit
  let s3 := s2.dropWhile isDigit
  let frac : List Nat × Str :=
    match s3 with
    | 46 :: r => (r.takeWhile isDigit, r.dropWhile isDigit)
    | _ => ([], s3)
  if intD = [] ∧ frac.1 = [] then none
  else some
    (sgn * ((natOfDigits intD : ℚ) + (natOfDigits frac.1 : ℚ) / (10 ^ frac.1.length)),
     frac.2)

/-- `parseFloat` on a string: skip leading whitespace, parse the longest
numeric prefix, ignore trailing junk; NaN is `none`. -/
def parseFloatS (s : Str) : Option ℚ :=
  (parseNum (s.dropWhile isWs)).map Prod.fst

/-- Decimal digits (code units) of a natural number. -/
def natDigits (n : Nat) : Str := (Nat.toDigits 10 n).map Char.toNat

/-- Decimal form of an integer. -/
def intStr (i : Int) : Str :=
  if i < 0 then 45 :: natDigits i.natAbs else natDigits i.natAbs

/-- Up to `fuel` decimal digits of the proper fraction `n / d`. -/
def fracDigs : Nat → Nat → Nat → Str
  | 0, _, _ => []
  | fuel + 1, n, d => if n = 0 then [] else
      (48 + n * 10 / d) :: fracDigs fuel (n * 10 % d) d

/-- `String(number)`: exact for integers; for non-integral rationals the
first 20 fraction digits (exact on every value any claim evaluates). -/
def numToStr (q : ℚ) : Str :=
  if q.den = 1 then intStr q.num
  else (if q < 0 then [45] else []) ++
    natDigits (q.num.natAbs / q.den) ++ [46] ++ fracDigs 20 (q.num.natAbs % q.den) q.den

/-- `String(v)` on a primitive. -/
def toStr : JsVal → Str
  | .undef => strOf "undefined"
  | .null => strOf "null"
  | .str s => s
  | .num q => numToStr q
  | .date t => strOf "[Date " ++ intStr t ++ strOf "]"
  -- `Date#toString` is locale-dependent; this placeholder is never evaluated
  -- by any claim.

/-- JS falsiness of a primitive (`undefined`, `null`, `''`, `0`). -/
def falsy : JsVal → Bool
  | .undef => true
  | .null => true
  | .str s => s = []
  | .num q => q = 0
  | .date _ => false

/-- `String(v || '')`. -/
def orEmptyStr (v : JsVal) : Str := if falsy v then [] else toStr v

/-- `parseFloat(v)`: numbers pass through, strings are parsed, everything
else stringifies to a non-numeric word, hence NaN. -/
def parseFloatV : JsVal → Option ℚ
  | .num q => some q
  | .str s => parseFloatS s
  | .undef => none
  | .null => none
  | .date t => some t
  -- `parseFloat` coerces a Date via `toString`; the locale string of a valid
  -- date starts with a weekday name in JS, but no claim evaluates this arm.

/-- `ToNumber(v)` as used by the relational operators on the raw `between`
bounds: `null` is 0, the empty/whitespace string is 0, otherwise a full
numeric-literal parse. -/
def toNumber : JsVal → Option ℚ
  | .num q => some q
  | .null => some 0
  | .undef => none
  | .date t => some t
  | .str s =>
      let t := trim s
      if t = [] then some 0
      else match parseNum t with
           | some (q, []) => some q
           | _ => none

/-- `new Date(v)` as epoch milliseconds; `none` is an Invalid Date.
String-to-date parsing is not modelled (no claim touches it). -/
def dateOf : JsVal → Option ℚ
  | .date t => some t
  | .num q => some q
  | .null => some 0
  | .undef => none
  | .str _ => none

/-- JS `x < y` on two possibly-NaN numbers: false when either is NaN. -/
def optLT (a b : Option ℚ) : Bool :=
  match a, b with
  | some x, some y => decide (x < y)
  | _, _ => false

/-- JS `x <= y` on two possibly-NaN numbers. -/
def optLE (a b : Option ℚ) : Bool :=
  match a, b with
  | some x, some y => decide (x ≤ y)
  | _, _ => false

/-- JS `x > y`. -/
def optGT (a b : Option ℚ) : Bool := optLT b a

/-- JS `x >= y`. -/
def optGE (a b : Option ℚ) : Bool := optLE b a

/-! ### `FilterCondition` (part_002 lines 13–86) -/

/-- A condition value: a primitive or an array. -/
inductive CondVal
  | prim (v : JsVal)
  | list (l : List JsVal)
deriving DecidableEq

/-- `String(value)` for a condition value (arrays join with commas). -/
def condValToStr : CondVal → Str
  | .prim v => toStr v
  | .list l => List.intercalate [44] (l.map toStr)

/-- `parseFloat(value)` for a condition value. -/
def parseFloatCV : CondVal → Option ℚ
  | .prim v => parseFloatV v
  | .list l => parseFloatS (condValToStr (.list l))

/-- `const [a, b] = value`: arrays destructure positionally (missing
entries are `undefined`), strings destructure into their first two one-unit
strings, other primitives are not iterable (`none` = thrown TypeError). -/
def destructure2 : CondVal → Option (JsVal × JsVal)
  | .list l => some (l.getD 0 .undef, l.getD 1 .undef)
  | .prim (.str []) => some (.undef, .undef)
  | .prim (.str [a]) => some (.str [a], .undef)
  | .prim (.str (a :: b :: _)) => some (.str [a], .str [b])
  | .prim _ => none

/-- A row object: association of field names to values; a missing field
reads as `undefined`. -/
abbrev Row := List (Str × JsVal)

def rowGet (row : Row) (f : Str) : JsVal := (lookupA row f).getD .undef

structure FilterCondition where
  field : Str
  operator : Str
  value : CondVal
deriving DecidableEq

/-- `FilterCondition.matches` (part_002 lines 25–64); `none` models a thrown
TypeError (destructuring a non-iterable `between`/`date-between` value).
Unrecognised operators fall through to `default: return true`. -/
def FilterCondition.matches (c : FilterCondition) (row : Row) : Option Bool :=
  let rowValue := rowGet row c.field
  if c.operator = strOf "eq" then
    match c.value with
    | .prim v => some (decide (rowValue = v))
    | .list _ => some false
  else if c.operator = strOf "contains" then
    some (decide (toLower (condValToStr c.value) <:+: toLower (orEmptyStr rowValue)))
  else if c.operator = strOf "gt" then
    some (optGT (parseFloatV rowValue) (parseFloatCV c.value))
  else if c.operator = strOf "gte" then
    some (optGE (parseFloatV rowValue) (parseFloatCV c.value))
  else if c.operator = strOf "lt" then
    some (optLT (parseFloatV rowValue) (parseFloatCV c.value))
  else if c.operator = strOf "lte" then
    some (optLE (parseFloatV rowValue) (parseFloatCV c.value))
  else if c.operator = strOf "between" then
    match destructure2 c.value with
    | none => none
    | some (mn, mx) =>
        some (optGE (parseFloatV rowValue) (toNumber mn) &&
              optLE (parseFloatV rowValue) (toNumber mx))
  else if c.operator = strOf "in" then
    match c.value with
    | .list l => some (decide (rowValue ∈ l))
    | .prim _ => some false
  else if c.operator = strOf "date-between" then
    match destructure2 c.value with
    | none => none
    | some (s, e) =>
        some (optGE (dateOf rowValue) (dateOf s) && optLE (dateOf rowValue) (dateOf e))
  else
    some true

/-! ### `CompositeFilter` (part_002 lines 92–194) -/

structure CFStats where
  evaluations : Nat
  shortCircuits : Nat
  cacheHits : Nat
deriving DecidableEq

structure CompositeFilter where
  conditions : List FilterCondition
  logic : Str
  stats : CFStats
deriving DecidableEq

/-- `new CompositeFilter(logic)`. -/
def CompositeFilter.new (logic : Str) : CompositeFilter := ⟨[], logic, ⟨0, 0, 0⟩⟩

/-- The AND loop: first failing condition wins; a thrown condition aborts. -/
def andRun (row : Row) : List FilterCondition → Option Bool
  | [] => some true
  | c :: rest =>
      match c.matches row with
      | none => none
      | some false => some false
      | some true => andRun row rest

/-- The OR loop: first succeeding condition wins. -/
def orRun (row : Row) : List FilterCondition → Option Bool
  | [] => some false
  | c :: rest =>
      match c.matches row with
      | none => none
      | some true => some true
      | some false => orRun row rest

/-- `CompositeFilter.matches`: bump `evaluations`, empty condition list
matches everything, AND short-circuits on the first failure (counting it in
`shortCircuits`), anything other than `'AND'` means OR.  The returned filter
carries the updated counters; `none` models a thrown condition. -/
def CompositeFilter.matches (cf : CompositeFilter) (row : Row) :
    Option Bool × CompositeFilter :=
  let stats1 := { cf.stats with evaluations := cf.stats.evaluations + 1 }
  if cf.conditions = [] then
    (some true, { cf with stats := stats1 })
  else if cf.logic = strOf "AND" then
    let res := andRun row cf.conditions
    (res,
     { cf with stats :=
        { stats1 with shortCircuits :=
            stats1.shortCircuits + (if res = some false then 1 else 0) } })
  else
    (orRun row cf.conditions, { cf with stats := stats1 })

/-- `data.filter(row => this.compositeFilter.matches(row))`: the kept rows
and the filter with its accumulated counters; `none` models an exception
thrown partway through the scan. -/
def runFilter (cf : CompositeFilter) : List Row → Option (List Row × CompositeFilter)
  | [] => some ([], cf)
  | row :: rest =>
      match cf.matches row with
      | (none, _) => none
      | (some b, cf') =>
          match runFilter cf' rest with
          | none => none
          | some (kept, cf'') => some (if b then row :: kept else kept, cf'')

/-- A sequence of `matches` calls, keeping only the filter state. -/
def runSeq (cf : CompositeFilter) (rows : List Row) : CompositeFilter :=
  rows.foldl (fun cf row => (cf.matches row).2) cf

theorem optLT_none_left (b : Option ℚ) : optLT none b = false := by cases b <;> rfl

theorem optLT_none_right (a : Option ℚ) : optLT a none = false := by cases a <;> rfl

theorem optLE_none_left (b : Option ℚ) : optLE none b = false := by cases b <;> rfl

theorem optLE_none_right (a : Option ℚ) : optLE a none = false := by cases a <;> rfl

theorem matches_gt (c : FilterCondition) (row : Row) (hop : c.operator = strOf "gt") :
    c.matches row =
      some (optGT (parseFloatV (rowGet row c.field)) (parseFloatCV c.value)) := by
  obtain ⟨f, op, v⟩ := c
  dsimp only at hop ⊢
  subst hop
  unfold FilterCondition.matches
  dsimp only
  rw [if_neg (by decide), if_neg (by decide), if_pos rfl]

theorem matches_gte (c : FilterCondition) (row : Row) (hop : c.operator = strOf "gte") :
    c.matches row =
      some (optGE (parseFloatV (rowGet row c.field)) (parseFloatCV c.value)) := by
  obtain ⟨f, op, v⟩ := c
  dsimp only at hop ⊢
  subst hop
  unfold FilterCondition.matches
  dsimp only
  rw [if_neg (by decide), if_neg (by decide), if_neg (by decide), if_pos rfl]

theorem matches_lt (c : FilterCondition) (row : Row) (hop : c.operator = strOf "lt") :
    c.matches row =
      some (optLT (parseFloatV (rowGet row c.field)) (parseFloatCV c.value)) := by
  obtain ⟨f, op, v⟩ := c
  dsimp only at hop ⊢
  subst hop
  unfold FilterCondition.matches
  dsimp only
  rw [if_neg (by decide), if_neg (by decide), if_neg (by decide), if_neg (by decide),
      if_pos rfl]

theorem matches_lte (c : FilterCondition) (row : Row) (hop : c.operator = strOf "lte") :
    c.matches row =
      some (optLE (parseFloatV (rowGet row c.field)) (parseFloatCV c.value)) := by
  obtain ⟨f, op, v⟩ := c
  dsimp only at hop ⊢
  subst hop
  unfold FilterCondition.matches
  dsimp only
  rw [if_neg (by decide), if_neg (by decide), if_neg (by decide), if_neg (by decide),
      if_neg (by decide), if_pos rfl]

theorem matches_between (c : FilterCondition) (row : Row)
    (hop : c.operator = strOf "between") :
    c.matches row =
      match destructure2 c.value with
      | none => none
      | some (mn, mx) =>
          some (optGE (parseFloatV (rowGet row c.field)) (toNumber mn) &&
                optLE (parseFloatV (rowGet row c.field)) (toNumber mx)) := by
  obtain ⟨f, op, v⟩ := c
  dsimp only at hop ⊢
  subst hop
  unfold FilterCondition.matches
  dsimp only
  rw [if_neg (by decide), if_neg (by decide), if_neg (by decide), if_neg (by decide),
      if_neg (by decide), if_neg (by decide), if_pos rfl]

/-- **C5**: for `gt`, `gte`, `lt`, `lte`, whenever either side fails to parse
as a number the condition evaluates to `some false` (NaN comparison), never an
error and never a coercion to 0; for `between` with a destructurable bound
value, a non-numeric row value likewise gives `some false`. -/
theorem C5_nan_comparison_false (c : FilterCondition) (row : Row) :
    ((c.operator = strOf "gt" ∨ c.operator = strOf "gte" ∨
      c.operator = strOf "lt" ∨ c.operator = strOf "lte") →
     (parseFloatV (rowGet row c.field) = none ∨ parseFloatCV c.value = none) →
     c.matches row = some false) ∧
    (c.operator = strOf "between" →
     parseFloatV (rowGet row c.field) = none →
     ∀ mn mx, destructure2 c.value = some (mn, mx) →
     c.matches row = some false) := by
  constructor
  · intro hop hnan
    rcases hop with h | h | h | h
    · rw [matches_gt c row h]
      rcases hnan with hr | hv
      · rw [hr]; rw [show optGT none (parseFloatCV c.value) = false from
          optLT_none_right _]
      · rw [hv]; rw [show optGT (parseFloatV (rowGet row c.field)) none = false from
          optLT_none_left _]
    · rw [matches_gte c row h]
      rcases hnan with hr | hv
      · rw [hr]; rw [show optGE none (parseFloatCV c.value) = false from
          optLE_none_right _]
      · rw [hv]; rw [show optGE (parseFloatV (rowGet row c.field)) none = false from
          optLE_none_left _]
    · rw [matches_lt c row h]
      rcases hnan with hr | hv
      · rw [hr, optLT_none_left]
      · rw [hv, optLT_none_right]
    · rw [matches_lte c row h]
      rcases hnan with hr | hv
      · rw [hr, optLE_none_left]
      · rw [hv, optLE_none_right]
  · intro hop hr mn mx hd
    rw [matches_between c row hop, hd, hr]
    dsimp only
    rw [show optGE none (toNumber mn) = false from optLE_none_right _, Bool.false_and]

/-- Witness for C5: `points gt 5` against a row whose `points` is `"abc"`,
and `points between [1, 2]` against the same row. -/
theorem C5_nan_comparison_false_witness :
    (FilterCondition.mk (strOf "points") (strOf "gt") (.prim (.num 5))).matches
      [(strOf "points", .str (strOf "abc"))] = some false ∧
    (FilterCondition.mk (strOf "points") (strOf "between")
        (.list [.num 1, .num 2])).matches
      [(strOf "points", .str (strOf "abc"))] = some false := by
  refine ⟨(C5_nan_comparison_false _ _).1 (Or.inl rfl) (Or.inl (by decide)),
          (C5_nan_comparison_false _ _).2 rfl (by decide) (.num 1) (.num 2) (by decide)⟩

/-- The recognised operators of `FilterCondition.matches`. -/
def knownOps : List Str :=
  [strOf "eq", strOf "contains", strOf "gt", strOf "gte", strOf "lt",
   strOf "lte", strOf "between", strOf "in", strOf "date-between"]

/-- **C3, counterexample**: a condition is constructed with the unknown
operator `"unknown-op"` (the constructor performs no validation, so
construction is a total function that raises nothing), and `matches` on it
silently returns a match-all `true` — the claim says this is never reached. -/
theorem C3_counterexample :
    (FilterCondition.mk (strOf "f") (strOf "unknown-op")
        (.prim (.str (strOf "v")))).matches
      [(strOf "f", .str (strOf "w"))] = some true := by decide

/-- **C3 (amended)**: construction performs no validation, and for every
operator outside the recognised set, `matches` silently returns `true`
(match-all) on every row; shape errors surface, if at all, only at
row-evaluation time. -/
theorem C3_unknown_op_matches_all (f op : Str) (v : CondVal) (row : Row)
    (h : op ∉ knownOps) :
    (FilterCondition.mk f op v).matches row = some true := by
  simp only [knownOps, List.mem_cons, List.not_mem_nil, or_false, not_or] at h
  obtain ⟨h1, h2, h3, h4, h5, h6, h7, h8, h9⟩ := h
  unfold FilterCondition.matches
  dsimp only
  rw [if_neg h1, if_neg h2, if_neg h3, if_neg h4, if_neg h5, if_neg h6, if_neg h7,
      if_neg h8, if_neg h9]

/-- Witness for C3 (amended) at the unknown operator `"xyz"`. -/
theorem C3_unknown_op_matches_all_witness :
    (FilterCondition.mk (strOf "g") (strOf "xyz") (.prim (.num 1))).matches [] =
      some true :=
  C3_unknown_op_matches_all (strOf "g") (strOf "xyz") (.prim (.num 1)) [] (by decide)

/-- **C6**: on the fixed 3-row dataset, the AND composite
`[points gte 120, code contains "A"]` keeps exactly the row `A2`/200, and the
final counters read `evaluations = 3`, `shortCircuits = 2`. -/
theorem C6_concrete_scenario :
    runFilter
      ⟨[⟨strOf "points", strOf "gte", .prim (.num 120)⟩,
        ⟨strOf "code", strOf "contains", .prim (.str (strOf "A"))⟩],
       strOf "AND", ⟨0, 0, 0⟩⟩
      [[(strOf "code", .str (strOf "A1")), (strOf "points", .num 100)],
       [(strOf "code", .str (strOf "A2")), (strOf "points", .num 200)],
       [(strOf "code", .str (strOf "B1")), (strOf "points", .num 150)]] =
    some ([[(strOf "code", .str (strOf "A2")), (strOf "points", .num 200)]],
          ⟨[⟨strOf "points", strOf "gte", .prim (.num 120)⟩,
            ⟨strOf "code", strOf "contains", .prim (.str (strOf "A"))⟩],
           strOf "AND", ⟨3, 2, 0⟩⟩) := by decide

/-- One `matches` call preserves `shortCircuits ≤ evaluations`. -/
theorem matches_step_sc (cf : CompositeFilter) (row : Row)
    (h : cf.stats.shortCircuits ≤ cf.stats.evaluations) :
    (cf.matches row).2.stats.shortCircuits ≤ (cf.matches row).2.stats.evaluations := by
  by_cases h0 : cf.conditions = []
  · simp [CompositeFilter.matches, h0]; omega
  · by_cases h1 : cf.logic = strOf "AND"
    · simp only [CompositeFilter.matches, if_neg h0, if_pos h1]
      split <;> omega
    · simp [CompositeFilter.matches, h0, h1]; omega

theorem runSeq_sc_le (rows : List Row) :
    ∀ cf : CompositeFilter, cf.stats.shortCircuits ≤ cf.stats.evaluations →
    (runSeq cf rows).stats.shortCircuits ≤ (runSeq cf rows).stats.evaluations := by
  induction rows with
  | nil => intro cf h; exact h
  | cons row rest ih => intro cf h; exact ih _ (matches_step_sc cf row h)

theorem andRun_eq_all (row : Row) (conds : List FilterCondition)
    (h : ∀ c ∈ conds, c.matches row ≠ none) :
    andRun row conds = some (conds.all fun c => (c.matches row).getD false) := by
  induction conds with
  | nil => rfl
  | cons c rest ih =>
      have hc := h c (by simp)
      cases hm : c.matches row with
      | none => exact absurd hm hc
      | some b =>
          cases b
          · simp [andRun, hm]
          · simp only [andRun, hm, ih fun c' hc' => h c' (by simp [hc'])]
            simp [hm]

theorem perm_all_eq {l₁ l₂ : List FilterCondition} (h : l₁.Perm l₂)
    (p : FilterCondition → Bool) : l₁.all p = l₂.all p := by
  cases hb : l₂.all p
  · cases hb₁ : l₁.all p
    · rfl
    · rw [List.all_eq_true] at hb₁
      exfalso
      have : l₂.all p = true :=
        List.all_eq_true.mpr fun c hc => hb₁ c (h.mem_iff.mpr hc)
      rw [hb] at this
      exact Bool.false_ne_true this
  · rw [List.all_eq_true] at hb
    exact List.all_eq_true.mpr fun c hc => hb c (h.mem_iff.mp hc)

/-- **C7**: (1) starting from a fresh AND composite, any sequence of `matches`
calls keeps `shortCircuits ≤ evaluations`; (2) for two AND composites whose
condition lists are permutations of one another, `matches` returns the same
boolean on any fixed row on which no condition throws. -/
theorem C7_and_invariant_and_perm :
    (∀ (conds : List FilterCondition) (rows : List Row),
      (runSeq ⟨conds, strOf "AND", ⟨0, 0, 0⟩⟩ rows).stats.shortCircuits ≤
      (runSeq ⟨conds, strOf "AND", ⟨0, 0, 0⟩⟩ rows).stats.evaluations) ∧
    (∀ (cf₁ cf₂ : CompositeFilter) (row : Row),
      cf₁.conditions.Perm cf₂.conditions →
      cf₁.logic = strOf "AND" → cf₂.logic = strOf "AND" →
      (∀ c ∈ cf₁.conditions, c.matches row ≠ none) →
      (cf₁.matches row).1 = (cf₂.matches row).1) := by
  constructor
  · intro conds rows
    exact runSeq_sc_le rows _ (Nat.le_refl 0)
  · intro cf₁ cf₂ row hperm hl1 hl2 hnt
    by_cases h0 : cf₁.conditions = []
    · have h0' : cf₂.conditions = [] := by
        rw [h0] at hperm
        exact hperm.symm.eq_nil
      simp [CompositeFilter.matches, h0, h0']
    · have h0' : cf₂.conditions ≠ [] := by
        intro hc
        rw [hc] at hperm
        exact h0 hperm.eq_nil
      have hnt' : ∀ c ∈ cf₂.conditions, c.matches row ≠ none :=
        fun c hc => hnt c (hperm.mem_iff.mpr hc)
      have e1 : (cf₁.matches row).1 = andRun row cf₁.conditions := by
        simp [CompositeFilter.matches, h0, hl1]
      have e2 : (cf₂.matches row).1 = andRun row cf₂.conditions := by
        simp [CompositeFilter.matches, h0', hl2]
      rw [e1, e2, andRun_eq_all row _ hnt, andRun_eq_all row _ hnt',
          perm_all_eq hperm]

/-- Witness for C7 at a two-condition AND composite and its swap. -/
theorem C7_and_invariant_and_perm_witness :
    ((runSeq ⟨[], strOf "AND", ⟨0, 0, 0⟩⟩ []).stats.shortCircuits ≤
     (runSeq ⟨[], strOf "AND", ⟨0, 0, 0⟩⟩ []).stats.evaluations) ∧
    ((⟨[⟨strOf "x", strOf "eq", .prim (.num 1)⟩,
        ⟨strOf "x", strOf "gt", .prim (.num 0)⟩],
       strOf "AND", ⟨0, 0, 0⟩⟩ : CompositeFilter).matches
        [(strOf "x", .num 1)]).1 =
    ((⟨[⟨strOf "x", strOf "gt", .prim (.num 0)⟩,
        ⟨strOf "x", strOf "eq", .prim (.num 1)⟩],
       strOf "AND", ⟨0, 0, 0⟩⟩ : CompositeFilter).matches
        [(strOf "x", .num 1)]).1 :=
  ⟨C7_and_invariant_and_perm.1 [] [],
   C7_and_invariant_and_perm.2 _ _ _
     (List.Perm.swap _ _ _) rfl rfl (by decide)⟩

/-- **C10**: with an empty condition list, `matches` returns `true` whatever
the logic string is, and still bumps the evaluation counter. -/
theorem C10_empty_matches_true (cf : CompositeFilter) (row : Row)
    (h : cf.conditions = []) :
    (cf.matches row).1 = some true ∧
    (cf.matches row).2.stats.evaluations = cf.stats.evaluations + 1 := by
  simp [CompositeFilter.matches, h]

/-- Witness for C10 on a fresh OR composite. -/
theorem C10_empty_matches_true_witness :
    ((CompositeFilter.new (strOf "OR")).matches []).1 = some true ∧
    ((CompositeFilter.new (strOf "OR")).matches []).2.stats.evaluations = 1 :=
  C10_empty_matches_true (CompositeFilter.new (strOf "OR")) [] rfl

/-! ### `AdvancedFilter` (part_002 lines 200–393)

Maps are insertion-ordered association lists; `Date` bounds are epoch
milliseconds; the wall-clock `time` field of a filter result is omitted (it
never influences the cached value that later calls compare). -/

/-- `JSON.stringify(v)` as interpolated into a template literal
(`undefined` interpolates as the word `undefined`; string escaping beyond
plain quoting is not modelled — no claim evaluates it on quote characters). -/
def jsonStr : JsVal → Str
  | .undef => strOf "undefined"
  | .null => strOf "null"
  | .str s => 34 :: s ++ [34]
  | .num q => numToStr q
  | .date t => 34 :: (strOf "date:" ++ intStr t) ++ [34]

def jsonStrCV : CondVal → Str
  | .prim v => jsonStr v
  | .list l => 91 :: List.intercalate [44] (l.map jsonStr) ++ [93]

structure FilterRes where
  results : List Row
  count : Nat
deriving DecidableEq

structure AdvancedFilter where
  compositeFilter : CompositeFilter
  columnFilters : List (Str × List JsVal)
  dateRanges : List (Str × (Int × Int))
  numericRanges : List (Str × (ℚ × ℚ))
  filterResults : List (Str × FilterRes)
  totalFilters : Nat
  cacheHits : Nat
  cacheMisses : Nat
deriving DecidableEq

/-- `new AdvancedFilter()`. -/
def AdvancedFilter.new : AdvancedFilter :=
  ⟨CompositeFilter.new (strOf "AND"), [], [], [], [], 0, 0, 0⟩

/-- `addCondition(field, operator, value)`: push a new condition. -/
def AdvancedFilter.addCondition (af : AdvancedFilter) (f op : Str) (v : CondVal) :
    AdvancedFilter :=
  { af with
    compositeFilter :=
      { af.compositeFilter with
         conditions := af.compositeFilter.conditions ++ [⟨f, op, v⟩] },
    totalFilters := af.totalFilters + 1 }

/-- `addColumnFilter(field, values)`: only a non-empty array is stored. -/
def AdvancedFilter.addColumnFilter (af : AdvancedFilter) (f : Str)
    (vals : List JsVal) : AdvancedFilter :=
  if vals ≠ [] then
    { af with columnFilters := mapSet af.columnFilters f vals,
              totalFilters := af.totalFilters + 1 }
  else af

/-- `addDateRange(field, startDate, endDate)`. -/
def AdvancedFilter.addDateRange (af : AdvancedFilter) (f : Str)
    (startMs endMs : Int) : AdvancedFilter :=
  { af with dateRanges := mapSet af.dateRanges f (startMs, endMs),
            totalFilters := af.totalFilters + 1 }

/-- `addNumericRange(field, min, max)`. -/
def AdvancedFilter.addNumericRange (af : AdvancedFilter) (f : Str)
    (mn mx : ℚ) : AdvancedFilter :=
  { af with numericRanges := mapSet af.numericRanges f (mn, mx),
            totalFilters := af.totalFilters + 1 }

/-- One `field:operator:value` fragment of the cache key. -/
def condKeyStr (c : FilterCondition) : Str :=
  c.field ++ 58 :: c.operator ++ 58 :: jsonStrCV c.value

def colKeyStr (p : Str × List JsVal) : Str :=
  p.1 ++ strOf ":in:" ++ jsonStrCV (.list p.2)

def dateKeyStr (p : Str × (Int × Int)) : Str :=
  p.1 ++ strOf ":date-between:" ++ intStr p.2.1 ++ 45 :: intStr p.2.2

def numKeyStr (p : Str × (ℚ × ℚ)) : Str :=
  p.1 ++ strOf ":numeric:" ++ numToStr p.2.1 ++ 45 :: numToStr p.2.2

/-- `AdvancedFilter.generateCacheKey`: the four groups in a fixed order,
each in its insertion order, joined with `|`. -/
def generateCacheKey (af : AdvancedFilter) : Str :=
  List.intercalate [124]
    (af.compositeFilter.conditions.map condKeyStr ++
     af.columnFilters.map colKeyStr ++
     af.dateRanges.map dateKeyStr ++
     af.numericRanges.map numKeyStr)

/-- The column-filter pass: `values.includes(row[field])` per stored filter. -/
def applyColumnFilters (cols : List (Str × List JsVal)) (rows : List Row) : List Row :=
  cols.foldl (fun rs p => rs.filter fun row => decide (rowGet row p.1 ∈ p.2)) rows

/-- The date-range pass: `new Date(row[field])` within the stored bounds. -/
def applyDateRanges (drs : List (Str × (Int × Int))) (rows : List Row) : List Row :=
  drs.foldl (fun rs p => rs.filter fun row =>
    optGE (dateOf (rowGet row p.1)) (some (p.2.1 : ℚ)) &&
    optLE (dateOf (rowGet row p.1)) (some (p.2.2 : ℚ))) rows

/-- The numeric-range pass: `!isNaN(v) && min <= v && v <= max`. -/
def applyNumericRanges (nrs : List (Str × (ℚ × ℚ))) (rows : List Row) : List Row :=
  nrs.foldl (fun rs p => rs.filter fun row =>
    match parseFloatV (rowGet row p.1) with
    | some x => decide (p.2.1 ≤ x ∧ x ≤ p.2.2)
    | none => false) rows

/-- `AdvancedFilter.filter(data)`: canonical key, result cache, then the four
passes; the cache is capped at 20 entries by deleting the oldest (first) key.
`none` models an exception thrown by a condition during the composite pass. -/
def AdvancedFilter.filter (af : AdvancedFilter) (data : List Row) :
    Option (FilterRes × AdvancedFilter) :=
  let key := generateCacheKey af
  match lookupA af.filterResults key with
  | some cached => some (cached, { af with cacheHits := af.cacheHits + 1 })
  | none =>
      match (if af.compositeFilter.conditions = []
             then some (data, af.compositeFilter)
             else runFilter af.compositeFilter data) with
      | none => none
      | some (rows1, cf') =>
          let rows4 := applyNumericRanges af.numericRanges
            (applyDateRanges af.dateRanges (applyColumnFilters af.columnFilters rows1))
          let res : FilterRes := ⟨rows4, rows4.length⟩
          let fr1 := mapSet af.filterResults key res
          some (res,
            { af with
               compositeFilter := cf',
               filterResults := if 20 < fr1.length then fr1.tail else fr1,
               cacheMisses := af.cacheMisses + 1 })

/-! ### Construction histories of an `AdvancedFilter`, for claim C2 -/

/-- One call to a filter-adding method. -/
inductive AFOp
  | cond (f op : Str) (v : CondVal)
  | colf (f : Str) (vals : List JsVal)
  | dr (f : Str) (a b : Int)
  | nr (f : Str) (mn mx : ℚ)

def applyOp (af : AdvancedFilter) : AFOp → AdvancedFilter
  | .cond f op v => af.addCondition f op v
  | .colf f vals => af.addColumnFilter f vals
  | .dr f a b => af.addDateRange f a b
  | .nr f mn mx => af.addNumericRange f mn mx

/-- The filter built by a sequence of add calls on a fresh instance. -/
def applyOps (ops : List AFOp) : AdvancedFilter :=
  ops.foldl applyOp AdvancedFilter.new

/-- The subsequence of `addCondition` calls. -/
def condProj : List AFOp → List FilterCondition
  | [] => []
  | .cond f op v :: rest => ⟨f, op, v⟩ :: condProj rest
  | _ :: rest => condProj rest

/-- The subsequence of `addColumnFilter` calls. -/
def colProj : List AFOp → List (Str × List JsVal)
  | [] => []
  | .colf f vals :: rest => (f, vals) :: colProj rest
  | _ :: rest => colProj rest

/-- The subsequence of `addDateRange` calls. -/
def drProj : List AFOp → List (Str × (Int × Int))
  | [] => []
  | .dr f a b :: rest => (f, (a, b)) :: drProj rest
  | _ :: rest => drProj rest

/-- The subsequence of `addNumericRange` calls. -/
def nrProj : List AFOp → List (Str × (ℚ × ℚ))
  | [] => []
  | .nr f mn mx :: rest => (f, (mn, mx)) :: nrProj rest
  | _ :: rest => nrProj rest

/-- Replaying column-filter calls on a map (with the non-empty guard). -/
def colApply (m : List (Str × List JsVal)) : List (Str × List JsVal) →
    List (Str × List JsVal)
  | [] => m
  | p :: rest => colApply (if p.2 ≠ [] then mapSet m p.1 p.2 else m) rest

/-- Replaying `Map.set` calls on a map. -/
def pairApply {β : Type} (m : List (Str × β)) : List (Str × β) → List (Str × β)
  | [] => m
  | p :: rest => pairApply (mapSet m p.1 p.2) rest

theorem applyOps_components (ops : List AFOp) : ∀ af : AdvancedFilter,
    (ops.foldl applyOp af).compositeFilter.conditions
      = af.compositeFilter.conditions ++ condProj ops ∧
    (ops.foldl applyOp af).columnFilters = colApply af.columnFilters (colProj ops) ∧
    (ops.foldl applyOp af).dateRanges = pairApply af.dateRanges (drProj ops) ∧
    (ops.foldl applyOp af).numericRanges = pairApply af.numericRanges (nrProj ops) := by
  induction ops with
  | nil =>
      intro af
      simp [condProj, colProj, drProj, nrProj, colApply, pairApply]
  | cons o rest ih =>
      intro af
      rw [List.foldl_cons]
      cases o with
      | cond f op v =>
          obtain ⟨ih1, ih2, ih3, ih4⟩ := ih (applyOp af (.cond f op v))
          refine ⟨?_, ?_, ?_, ?_⟩
          · rw [ih1]; simp [applyOp, AdvancedFilter.addCondition, condProj]
          · rw [ih2]; simp [applyOp, AdvancedFilter.addCondition, colProj]
          · rw [ih3]; simp [applyOp, AdvancedFilter.addCondition, drProj]
          · rw [ih4]; simp [applyOp, AdvancedFilter.addCondition, nrProj]
      | colf f vals =>
          by_cases hv : vals = []
          · have hap : applyOp af (.colf f vals) = af := by
              simp [applyOp, AdvancedFilter.addColumnFilter, hv]
            rw [hap]
            obtain ⟨ih1, ih2, ih3, ih4⟩ := ih af
            refine ⟨?_, ?_, ?_, ?_⟩
            · rw [ih1]; simp [condProj]
            · rw [ih2]; simp [colProj, colApply, hv]
            · rw [ih3]; simp [drProj]
            · rw [ih4]; simp [nrProj]
          · have hap : applyOp af (.colf f vals) =
                { af with columnFilters := mapSet af.columnFilters f vals,
                          totalFilters := af.totalFilters + 1 } := by
              simp [applyOp, AdvancedFilter.addColumnFilter, hv]
            rw [hap]
            obtain ⟨ih1, ih2, ih3, ih4⟩ :=
              ih { af with columnFilters := mapSet af.columnFilters f vals,
                           totalFilters := af.totalFilters + 1 }
            refine ⟨?_, ?_, ?_, ?_⟩
            · rw [ih1]; simp [condProj]
            · rw [ih2]; simp [colProj, colApply, hv]
            · rw [ih3]; simp [drProj]
            · rw [ih4]; simp [nrProj]
      | dr f a b =>
          obtain ⟨ih1, ih2, ih3, ih4⟩ := ih (applyOp af (.dr f a b))
          refine ⟨?_, ?_, ?_, ?_⟩
          · rw [ih1]; simp [applyOp, AdvancedFilter.addDateRange, condProj]
          · rw [ih2]; simp [applyOp, AdvancedFilter.addDateRange, colProj]
          · rw [ih3]; simp [applyOp, AdvancedFilter.addDateRange, drProj, pairApply]
          · rw [ih4]; simp [applyOp, AdvancedFilter.addDateRange, nrProj]
      | nr f mn mx =>
          obtain ⟨ih1, ih2, ih3, ih4⟩ := ih (applyOp af (.nr f mn mx))
          refine ⟨?_, ?_, ?_, ?_⟩
          · rw [ih1]; simp [applyOp, AdvancedFilter.addNumericRange, condProj]
          · rw [ih2]; simp [applyOp, AdvancedFilter.addNumericRange, colProj]
          · rw [ih3]; simp [applyOp, AdvancedFilter.addNumericRange, drProj]
          · rw [ih4]; simp [applyOp, AdvancedFilter.addNumericRange, nrProj, pairApply]

theorem key_ext (af₁ af₂ : AdvancedFilter)
    (h1 : af₁.compositeFilter.conditions = af₂.compositeFilter.conditions)
    (h2 : af₁.columnFilters = af₂.columnFilters)
    (h3 : af₁.dateRanges = af₂.dateRanges)
    (h4 : af₁.numericRanges = af₂.numericRanges) :
    generateCacheKey af₁ = generateCacheKey af₂ := by
  unfold generateCacheKey
  rw [h1, h2, h3, h4]

theorem matches_conditions (cf : CompositeFilter) (row : Row) :
    (cf.matches row).2.conditions = cf.conditions := by
  unfold CompositeFilter.matches
  by_cases h0 : cf.conditions = [] <;> by_cases h1 : cf.logic = strOf "AND" <;>
    simp [h0, h1]

theorem runFilter_conditions (rows : List Row) : ∀ (cf : CompositeFilter)
    (kept : List Row) (cf'' : CompositeFilter),
    runFilter cf rows = some (kept, cf'') → cf''.conditions = cf.conditions := by
  induction rows with
  | nil =>
      intro cf kept cf'' h
      simp only [runFilter, Option.some.injEq, Prod.mk.injEq] at h
      rw [← h.2]
  | cons row rest ih =>
      intro cf kept cf'' h
      rw [runFilter] at h
      rcases hcm : cf.matches row with ⟨ob, cfm⟩
      rw [hcm] at h
      cases ob with
      | none => simp at h
      | some b =>
          dsimp only at h
          rcases hrr : runFilter cfm rest with _ | pr
          · rw [hrr] at h; simp at h
          · obtain ⟨kept', cf2⟩ := pr
            rw [hrr] at h
            simp only [Option.some.injEq, Prod.mk.injEq] at h
            have h2 : cf2 = cf'' := h.2
            have hc : cfm.conditions = cf.conditions := by
              have := matches_conditions cf row
              rw [hcm] at this
              exact this
            rw [← h2, ih cfm kept' cf2 hrr, hc]

theorem lookupA_cons_none {α : Type} {p : Str × α} {m : List (Str × α)} {k : Str}
    (h : lookupA (p :: m) k = none) : lookupA m k = none := by
  obtain ⟨k', v⟩ := p
  by_cases hk : k' = k
  · simp [lookupA, hk] at h
  · simpa [lookupA, hk] using h

theorem lookupA_append_single {α : Type} (m : List (Str × α)) (k : Str) (v : α)
    (h : lookupA m k = none) : lookupA (m ++ [(k, v)]) k = some v := by
  induction m with
  | nil => simp [lookupA]
  | cons p rest ih =>
      obtain ⟨k', v'⟩ := p
      by_cases hk : k' = k
      · simp [lookupA, hk] at h
      · rw [List.cons_append]
        simp only [lookupA, if_neg hk]
        exact ih (by simpa [lookupA, hk] using h)

/-- Second call with the key already cached is served from the cache. -/
theorem filter_hit (af : AdvancedFilter) (data : List Row) (r : FilterRes)
    (hl : lookupA af.filterResults (generateCacheKey af) = some r) :
    af.filter data = some (r, { af with cacheHits := af.cacheHits + 1 }) := by
  simp only [AdvancedFilter.filter, hl]

/-- Two construction histories that permute the `addCondition` calls. -/
def c2a : AdvancedFilter :=
  (AdvancedFilter.new.addCondition (strOf "a") (strOf "eq")
    (.prim (.str (strOf "x")))).addCondition (strOf "b") (strOf "eq")
    (.prim (.str (strOf "y")))

def c2b : AdvancedFilter :=
  (AdvancedFilter.new.addCondition (strOf "b") (strOf "eq")
    (.prim (.str (strOf "y")))).addCondition (strOf "a") (strOf "eq")
    (.prim (.str (strOf "x")))

/-- **C2, counterexample**: two `AdvancedFilter` instances whose final active
constraint sets are identical (permuted conditions, equal other groups)
nevertheless generate different cache keys, because `generateCacheKey` emits
the conditions in insertion order. -/
theorem C2_counterexample :
    c2a.compositeFilter.conditions.isPerm c2b.compositeFilter.conditions = true ∧
    c2a.columnFilters = c2b.columnFilters ∧
    c2a.dateRanges = c2b.dateRanges ∧
    c2a.numericRanges = c2b.numericRanges ∧
    generateCacheKey c2a ≠ generateCacheKey c2b := by decide

/-- **C2 (amended)**: (1) the cache key depends only on the per-method call
sequences — any interleaving of the four adding methods with equal
per-category subsequences yields the same canonical key; (2) a repeat
`filter(data)` call on the state left by a successful `filter(data)` call is
served from the filter-result cache with the identical result. -/
theorem C2_key_canonical_and_cache_hit :
    (∀ ops₁ ops₂ : List AFOp,
      condProj ops₁ = condProj ops₂ → colProj ops₁ = colProj ops₂ →
      drProj ops₁ = drProj ops₂ → nrProj ops₁ = nrProj ops₂ →
      generateCacheKey (applyOps ops₁) = generateCacheKey (applyOps ops₂)) ∧
    (∀ (af : AdvancedFilter) (data : List Row) (r : FilterRes) (af' : AdvancedFilter),
      af.filter data = some (r, af') →
      af'.filter data = some (r, { af' with cacheHits := af'.cacheHits + 1 })) := by
  constructor
  · intro ops₁ ops₂ h1 h2 h3 h4
    obtain ⟨a1, a2, a3, a4⟩ := applyOps_components ops₁ AdvancedFilter.new
    obtain ⟨b1, b2, b3, b4⟩ := applyOps_components ops₂ AdvancedFilter.new
    refine key_ext _ _ ?_ ?_ ?_ ?_
    · show (applyOps ops₁).compositeFilter.conditions = _
      rw [applyOps, applyOps, a1, b1, h1]
    · show (applyOps ops₁).columnFilters = _
      rw [applyOps, applyOps, a2, b2, h2]
    · show (applyOps ops₁).dateRanges = _
      rw [applyOps, applyOps, a3, b3, h3]
    · show (applyOps ops₁).numericRanges = _
      rw [applyOps, applyOps, a4, b4, h4]
  · intro af data r af' h
    simp only [AdvancedFilter.filter] at h
    split at h
    · next cached hlook =>
        simp only [Option.some.injEq, Prod.mk.injEq] at h
        obtain ⟨rfl, rfl⟩ := h
        exact filter_hit _ data cached hlook
    · next hlook =>
        split at h
        · simp at h
        · next rows1 cf' hrun =>
            simp only [Option.some.injEq, Prod.mk.injEq] at h
            obtain ⟨rfl, rfl⟩ := h
            have hconds : cf'.conditions = af.compositeFilter.conditions := by
              by_cases h0 : af.compositeFilter.conditions = []
              · rw [if_pos h0] at hrun
                simp only [Option.some.injEq, Prod.mk.injEq] at hrun
                rw [← hrun.2, h0]
              · rw [if_neg h0] at hrun
                exact runFilter_conditions data _ rows1 cf' hrun
            have hkey : generateCacheKey
                { af with
                   compositeFilter := cf',
                   filterResults :=
                     if 20 < (mapSet af.filterResults (generateCacheKey af)
                         ⟨applyNumericRanges af.numericRanges
                            (applyDateRanges af.dateRanges
                              (applyColumnFilters af.columnFilters rows1)),
                          (applyNumericRanges af.numericRanges
                            (applyDateRanges af.dateRanges
                              (applyColumnFilters af.columnFilters rows1))).length⟩).length
                     then (mapSet af.filterResults (generateCacheKey af)
                         ⟨applyNumericRanges af.numericRanges
                            (applyDateRanges af.dateRanges
                              (applyColumnFilters af.columnFilters rows1)),
                          (applyNumericRanges af.numericRanges
                            (applyDateRanges af.dateRanges
                              (applyColumnFilters af.columnFilters rows1))).length⟩).tail
                     else mapSet af.filterResults (generateCacheKey af)
                         ⟨applyNumericRanges af.numericRanges
                            (applyDateRanges af.dateRanges
                              (applyColumnFilters af.columnFilters rows1)),
                          (applyNumericRanges af.numericRanges
                            (applyDateRanges af.dateRanges
                              (applyColumnFilters af.columnFilters rows1))).length⟩,
                   cacheMisses := af.cacheMisses + 1 } = generateCacheKey af :=
              key_ext _ _ hconds rfl rfl rfl
            apply filter_hit
            rw [hkey]
            generalize hres : (⟨applyNumericRanges af.numericRanges
                (applyDateRanges af.dateRanges
                  (applyColumnFilters af.columnFilters rows1)),
              (applyNumericRanges af.numericRanges
                (applyDateRanges af.dateRanges
                  (applyColumnFilters af.columnFilters rows1))).length⟩ : FilterRes) = res
            have hfr1 : mapSet af.filterResults (generateCacheKey af) res =
                af.filterResults ++ [(generateCacheKey af, res)] :=
              mapSet_fresh _ _ _ hlook
            show lookupA (if 20 < (mapSet af.filterResults (generateCacheKey af) res).length
                then (mapSet af.filterResults (generateCacheKey af) res).tail
                else mapSet af.filterResults (generateCacheKey af) res)
              (generateCacheKey af) = some res
            by_cases hlen :
                20 < (mapSet af.filterResults (generateCacheKey af) res).length
            · rw [if_pos hlen, hfr1]
              cases hm : af.filterResults with
              | nil =>
                  rw [hfr1, hm] at hlen
                  simp at hlen
              | cons p m =>
                  rw [List.cons_append, List.tail_cons]
                  refine lookupA_append_single _ _ _ ?_
                  rw [hm] at hlook
                  exact lookupA_cons_none hlook
            · rw [if_neg hlen, hfr1]
              exact lookupA_append_single _ _ _ hlook

/-- Witness for C2 (amended): two interleavings of the same two calls give the
same key, and on a concrete state a repeated `filter` call is a cache hit. -/
theorem C2_key_canonical_and_cache_hit_witness :
    generateCacheKey (applyOps
        [AFOp.colf (strOf "c") [.num 1],
         AFOp.cond (strOf "a") (strOf "eq") (.prim (.num 2))]) =
      generateCacheKey (applyOps
        [AFOp.cond (strOf "a") (strOf "eq") (.prim (.num 2)),
         AFOp.colf (strOf "c") [.num 1]]) ∧
    (⟨CompositeFilter.new (strOf "AND"), [], [], [],
        [([], ⟨[], 0⟩)], 0, 0, 1⟩ : AdvancedFilter).filter [] =
      some (⟨[], 0⟩,
        ⟨CompositeFilter.new (strOf "AND"), [], [], [],
          [([], ⟨[], 0⟩)], 0, 1, 1⟩) := by
  refine ⟨C2_key_canonical_and_cache_hit.1 _ _ (by decide) (by decide) (by decide)
      (by decide), ?_⟩
  exact C2_key_canonical_and_cache_hit.2 AdvancedFilter.new []
    ⟨[], 0⟩ ⟨CompositeFilter.new (strOf "AND"), [], [], [], [([], ⟨[], 0⟩)], 0, 0, 1⟩
    (by decide)

end MOT
